import Mathlib

/-!
Verification development for the sql-formatter2 core
(`src/core/Tokenizer.ts`, `src/core/Formatter.ts`, `Params`, `tokenTypes`,
`types`).  The TypeScript code is embedded shallowly: strings are `List Char`,
each anchored JavaScript regex of the tokenizer is translated into a matcher
returning the number of characters of the first capture group (which for every
regex of this program is the whole match, hence a prefix of the input), and
the stateful formatter is embedded as explicit state passing.

JavaScript-specific conventions reproduced here:
  * `\s` is the JS whitespace class, `\w`/`\b` are ASCII word
    characters/boundaries, `.` matches anything but a line terminator;
  * alternation prefers the leftmost alternative, quantifiers are greedy
    (or lazy where the source regex is lazy) with backtracking — each matcher
    below implements the deterministic residue of that search for its
    particular regex;
  * `toUpperCase` is modelled characterwise on ASCII letters (configurations
    are assumed not to contain the exotic Unicode characters on which JS
    `toUpperCase` changes the string length);
  * configuration entries (reserved words, parens, comment and placeholder
    prefixes) are assumed to contain no regex metacharacters, as in the
    shipped dialect tables (the code splices them into regex source; for
    comment/placeholder prefixes it applies `escapeRegExp`, so those are
    literal in all cases);
  * a JS value that may be `undefined` is an `Option`; the non-terminating
    `while` loop of `tokenize` is run on fuel, `none` meaning divergence.
-/

/-- JS regex class `\s` (also the set trimmed by `trim`/lodash `trimEnd`). -/
def isJsSpace (c : Char) : Bool :=
  let n := c.toNat
  (9 ≤ n && n ≤ 13) || n = 32 || n = 0xa0 || n = 0x1680 ||
  (0x2000 ≤ n && n ≤ 0x200a) || n = 0x2028 || n = 0x2029 ||
  n = 0x202f || n = 0x205f || n = 0x3000 || n = 0xfeff

/-- JS line terminators: the characters `.` does not match. -/
def isLineTerm (c : Char) : Bool :=
  let n := c.toNat
  n = 10 || n = 13 || n = 0x2028 || n = 0x2029

/-- JS regex class `\w` (ASCII), also the class used by `\b`. -/
def isWordChar (c : Char) : Bool :=
  (('A' ≤ c && c ≤ 'Z') || ('a' ≤ c && c ≤ 'z') || ('0' ≤ c && c ≤ '9') || c = '_')

def isDigitChar (c : Char) : Bool := '0' ≤ c && c ≤ '9'

def isHexChar (c : Char) : Bool :=
  isDigitChar c || ('a' ≤ c && c ≤ 'f') || ('A' ≤ c && c ≤ 'F')

def isBinChar (c : Char) : Bool := c = '0' || c = '1'

/-- Character class `[a-zA-Z0-9._$]` of the ident-named-placeholder regex. -/
def isIdentPHChar (c : Char) : Bool :=
  isDigitChar c || ('a' ≤ c && c ≤ 'z') || ('A' ≤ c && c ≤ 'Z') ||
  c = '.' || c = '_' || c = '$'

/-- Characterwise ASCII `toUpperCase`. -/
def upperChar (c : Char) : Char :=
  if 'a' ≤ c && c ≤ 'z' then Char.ofNat (c.toNat - 32) else c

def lowerChar (c : Char) : Char :=
  if 'A' ≤ c && c ≤ 'Z' then Char.ofNat (c.toNat + 32) else c

/-- `String.prototype.toUpperCase`, characterwise ASCII model. -/
def jsUpper (l : List Char) : List Char := l.map upperChar

/-- Case-insensitive character comparison (JS regex `i` flag, ASCII model). -/
def ciEqChar (a b : Char) : Bool := lowerChar a = lowerChar b

def ciEqList : List Char → List Char → Bool
  | [], [] => true
  | a :: as, b :: bs => ciEqChar a b && ciEqList as bs
  | _, _ => false

def ciStartsWith : List Char → List Char → Bool
  | [], _ => true
  | _ :: _, [] => false
  | a :: as, b :: bs => ciEqChar a b && ciStartsWith as bs

def countWhile (p : Char → Bool) (l : List Char) : Nat := (l.takeWhile p).length

def str (s : String) : List Char := s.data

/-- The single-quote character (codepoint 39). -/
def cQuote : Char := Char.ofNat 39

/-- The double-quote character (codepoint 34). -/
def cDQuote : Char := Char.ofNat 34

/-- The backtick character (codepoint 96). -/
def cBacktick : Char := Char.ofNat 96

/-- First alternative of a regex alternation that matches (leftmost wins). -/
def firstSome {α β : Type} : List α → (α → Option β) → Option β
  | [], _ => none
  | a :: as, f => match f a with | some b => some b | none => firstSome as f

/-- JS `a || b` on option-like token results. -/
def oor {α : Type} (a b : Option α) : Option α :=
  match a with | some t => some t | none => b

/- ## Token model (`tokenTypes.ts`, `types.ts`) -/

/-- The token-type string constants of `tokenTypes.ts`, plus `empty` standing
for the `{}` / `{type: ""}` default objects of the JS code. -/
inductive TokenType where
  | whitespace | word | string | reserved | reservedToplevel | reservedNewline
  | operator | openParen | closeParen | lineComment | blockComment
  | number | placeholder | empty
deriving DecidableEq, Repr

structure Token where
  type : TokenType
  value : List Char
  key : List Char
deriving DecidableEq, Repr

def emptyToken : Token := { type := .empty, value := [], key := [] }

/-- `tokenizerConfig` of `types.ts`; every field defaults to `[]` as in the
TS code (`Partial<...>` plus the `= []` defaults of the builder methods). -/
structure TokenizerConfig where
  reservedWords : List (List Char) := []
  reservedToplevelWords : List (List Char) := []
  reservedNewlineWords : List (List Char) := []
  stringTypes : List (List Char) := []
  openParens : List (List Char) := []
  closeParens : List (List Char) := []
  indexedPlaceholderTypes : List (List Char) := []
  namedPlaceholderTypes : List (List Char) := []
  lineCommentTypes : List (List Char) := []
  specialWordChars : List Char := []
deriving DecidableEq, Repr

/- ## Matchers: one per compiled regex of `Tokenizer.ts`.
Each returns the length of the match at the start of the input. -/

/-- `WHITESPACE_REGEX = /^(\s+)/`. -/
def matchWhitespace (input : List Char) : Option Nat :=
  let n := countWhile isJsSpace input
  if n = 0 then none else some n

/-- Lazy `.*?(?:\n|$)` tail of the line-comment regex: consumes
non-line-terminator characters up to and including the first `\n`, or to the
end of input; a `\r`/U+2028/U+2029 reached first makes the regex fail. -/
def lineCommentScan : List Char → Option Nat
  | [] => some 0
  | c :: cs =>
    if c = '\n' then some 1
    else if isLineTerm c then none
    else (lineCommentScan cs).map (· + 1)

/-- `LINE_COMMENT_REGEX = ^((?:p1|p2|...).*?(?:\n|$))`; an empty
`lineCommentTypes` list compiles to the empty prefix alternative `(?:)`. -/
def matchLineComment (cfg : TokenizerConfig) (input : List Char) : Option Nat :=
  let ps := if cfg.lineCommentTypes.isEmpty then [[]] else cfg.lineCommentTypes
  firstSome ps fun p =>
    if p.isPrefixOf input then (lineCommentScan (input.drop p.length)).map (p.length + ·)
    else none

/-- Position (length including the closing chars) of the first `*/` in the
list, lazy search of `[^]*?(?:\*\/|$)`. -/
def findBlockClose : List Char → Option Nat
  | [] => none
  | c :: cs =>
    if c = '*' then
      match cs with
      | d :: _ => if d = '/' then some 2 else (findBlockClose cs).map (· + 1)
      | [] => (findBlockClose cs).map (· + 1)
    else (findBlockClose cs).map (· + 1)

/-- `BLOCK_COMMENT_REGEX = /^(\/\*[^]*?(?:\*\/|$))/`. -/
def matchBlockComment (input : List Char) : Option Nat :=
  if (str "/*").isPrefixOf input then
    let rest := input.drop 2
    some (2 + (findBlockClose rest).getD rest.length)
  else none

/- String-literal patterns of `createStringPattern`. -/

/-- One backtick group `` (`[^`]*($|`)) ``. -/
def btGroup (input : List Char) : Option Nat :=
  match input with
  | c :: rest =>
    if c = cBacktick then
      let n := countWhile (fun d => !(d = cBacktick)) rest
      if n < rest.length then some (n + 2) else some (n + 1)
    else none
  | [] => none

/-- Greedy `+` repetition of a group matcher: at least one group, then as many
as still match; total length returned.  A group never matches the empty
string here, so fuel `input.length + 1` always suffices. -/
def repGreedy (g : List Char → Option Nat) : Nat → List Char → Nat → Option Nat
  | 0, _, acc => if acc = 0 then none else some acc
  | fuel + 1, input, acc =>
    let n := (g input).getD 0
    if n = 0 then (if acc = 0 then none else some acc)
    else repGreedy g fuel (input.drop n) (acc + n)

/-- Greedy `*` repetition (zero or more groups); total length. -/
def repGreedy0 (g : List Char → Option Nat) : Nat → List Char → Nat → Nat
  | 0, _, acc => acc
  | fuel + 1, input, acc =>
    let n := (g input).getD 0
    if n = 0 then acc else repGreedy0 g fuel (input.drop n) (acc + n)

/-- `((`[^`]*($|`))+)` — backtick-quoted, doubled-backtick escape. -/
def backtickMatch (input : List Char) : Option Nat :=
  repGreedy btGroup (input.length + 1) input 0

/-- First square-bracket group `(\[[^\]]*($|\]))`. -/
def brFirst (input : List Char) : Option Nat :=
  match input with
  | c :: rest =>
    if c = '[' then
      let n := countWhile (fun d => !(d = ']')) rest
      if n < rest.length then some (n + 2) else some (n + 1)
    else none
  | [] => none

/-- Continuation group `(\][^\]]*($|\]))`. -/
def brRep (input : List Char) : Option Nat :=
  match input with
  | c :: rest =>
    if c = ']' then
      let n := countWhile (fun d => !(d = ']')) rest
      if n < rest.length then some (n + 2) else some (n + 1)
    else none
  | [] => none

/-- `((\[[^\]]*($|\]))(\][^\]]*($|\]))*)` — bracket-quoted, doubled `]]`. -/
def bracketMatch (input : List Char) : Option Nat :=
  (brFirst input).map fun n =>
    n + repGreedy0 brRep (input.length + 1) (input.drop n) 0

/-- Inner part `[^q\\]*(?:\\.[^q\\]*)*(q|$)` of a quoted group with quote
character `q`; `\\.` requires a non-line-terminator after the backslash,
otherwise the group fails (JS `.`). -/
def qInner (q : Char) : Nat → List Char → Option Nat
  | _, [] => some 0
  | 0, _ => none
  | fuel + 1, l =>
    let n := countWhile (fun d => !(d = q) && !(d = '\\')) l
    match l.drop n with
    | [] => some n
    | c :: rest =>
      if c = q then some (n + 1)
      else
        match rest with
        | [] => none
        | d :: rest2 =>
          if isLineTerm d then none
          else (qInner q fuel rest2).map (n + 2 + ·)

/-- One quoted group `(q[^q\\]*(?:\\.[^q\\]*)*(q|$))`. -/
def qGroup (q : Char) (input : List Char) : Option Nat :=
  match input with
  | c :: rest => if c = q then (qInner q (rest.length + 1) rest).map (· + 1) else none
  | [] => none

/-- `((q...)+)` — quote-delimited with backslash or doubled-quote escape. -/
def quoteMatch (q : Char) (input : List Char) : Option Nat :=
  repGreedy (qGroup q) (input.length + 1) input 0

/-- Inner part of the `N''` pattern: class `[^N'\\]`. -/
def nInner : Nat → List Char → Option Nat
  | _, [] => some 0
  | 0, _ => none
  | fuel + 1, l =>
    let n := countWhile (fun d => !(d = 'N') && !(d = cQuote) && !(d = '\\')) l
    match l.drop n with
    | [] => some n
    | c :: rest =>
      if c = cQuote then some (n + 1)
      else if c = 'N' then none
      else
        match rest with
        | [] => none
        | d :: rest2 =>
          if isLineTerm d then none
          else (nInner fuel rest2).map (n + 2 + ·)

/-- One `N'...'` group `(N'[^N'\\]*(?:\\.[^N'\\]*)*('|$))`. -/
def nGroup (input : List Char) : Option Nat :=
  match input with
  | c :: c2 :: rest =>
    if c = 'N' && c2 = cQuote then (nInner (rest.length + 1) rest).map (· + 2) else none
  | _ => none

/-- `((N'...)+)` — national character strings. -/
def nQuoteMatch (input : List Char) : Option Nat :=
  repGreedy nGroup (input.length + 1) input 0

/-- The five keys accepted by `createStringPattern`'s `patterns` map. -/
def keyBT : List Char := [cBacktick, cBacktick]
def keyBR : List Char := ['[', ']']
def keyDQ : List Char := [cDQuote, cDQuote]
def keySQ : List Char := [cQuote, cQuote]
def keyNQ : List Char := ['N', cQuote, cQuote]

inductive StrKind where
  | bt | br | dq | sq | nq | unknown
deriving DecidableEq, Repr

def strKindOf (key : List Char) : StrKind :=
  if key = keyBT then .bt
  else if key = keyBR then .br
  else if key = keyDQ then .dq
  else if key = keySQ then .sq
  else if key = keyNQ then .nq
  else .unknown

/-- One alternative of the joined string pattern.  A `stringTypes` entry that
is not one of the five keys looks up `undefined` in `patterns`, which
`Array.prototype.join` renders as the empty alternative — matching the empty
string (JS quirk, the commented-out `isEmpty` guard of the source would have
avoided the analogous empty-list case). -/
def strAltMatch (key : List Char) (input : List Char) : Option Nat :=
  match strKindOf key with
  | .bt => backtickMatch input
  | .br => bracketMatch input
  | .dq => quoteMatch cDQuote input
  | .sq => quoteMatch cQuote input
  | .nq => nQuoteMatch input
  | .unknown => some 0

/-- The joined string pattern (used bare by `STRING_REGEX` and as the suffix
pattern of `STRING_NAMED_PLACEHOLDER_REGEX`).  An empty `stringTypes` list
joins to the empty pattern, which matches the empty string. -/
def stringPatternMatch (cfg : TokenizerConfig) (input : List Char) : Option Nat :=
  if cfg.stringTypes.isEmpty then some 0
  else firstSome cfg.stringTypes (strAltMatch · input)

/-- JS `\b` test at position `n` of the input: exactly one neighbour is a
word character (out-of-range counts as non-word). -/
def wordBoundaryOk (input : List Char) (n : Nat) : Bool :=
  let left := if n = 0 then false else
    (match input.get? (n - 1) with | some c => isWordChar c | none => false)
  let right := (match input.get? n with | some c => isWordChar c | none => false)
  left != right

/-- One alternative of `createParenRegex` (flag `i`): a single character is
matched literally (escaped), a longer word as `\b word \b`; the empty string
(possible only from an empty config entry) compiles to `\b\b`. -/
def parenAlt (p : List Char) (input : List Char) : Option Nat :=
  match p with
  | [] => if wordBoundaryOk input 0 then some 0 else none
  | c :: p0 =>
    if p0.isEmpty then
      match input with
      | d :: _ => if ciEqChar c d then some 1 else none
      | [] => none
    else
      if ciStartsWith (c :: p0) input && wordBoundaryOk input 0 &&
         wordBoundaryOk input (c :: p0).length
      then some (c :: p0).length else none

/-- `OPEN_PAREN_REGEX` / `CLOSE_PAREN_REGEX`; an empty paren list compiles to
`^()`, which matches the empty string. -/
def matchParens (ps : List (List Char)) (input : List Char) : Option Nat :=
  if ps.isEmpty then some 0 else firstSome ps (parenAlt · input)

/-- `INDEXED_PLACEHOLDER_REGEX = ^((?:p1|...)(?:[0-9]*))`; empty prefix list
compiles to the empty alternative. -/
def matchIndexedPH (cfg : TokenizerConfig) (input : List Char) : Option Nat :=
  let ps := if cfg.indexedPlaceholderTypes.isEmpty then [[]]
            else cfg.indexedPlaceholderTypes
  firstSome ps fun p =>
    if p.isPrefixOf input then
      some (p.length + countWhile isDigitChar (input.drop p.length))
    else none

/-- `IDENT_NAMED_PLACEHOLDER_REGEX = ^((?:p1|...)(?:[a-zA-Z0-9._$]+))`. -/
def matchIdentPH (cfg : TokenizerConfig) (input : List Char) : Option Nat :=
  let ps := if cfg.namedPlaceholderTypes.isEmpty then [[]]
            else cfg.namedPlaceholderTypes
  firstSome ps fun p =>
    if p.isPrefixOf input then
      let n := countWhile isIdentPHChar (input.drop p.length)
      if n = 0 then none else some (p.length + n)
    else none

/-- `STRING_NAMED_PLACEHOLDER_REGEX`: a named-placeholder prefix followed by
the string pattern. -/
def matchStringPH (cfg : TokenizerConfig) (input : List Char) : Option Nat :=
  let ps := if cfg.namedPlaceholderTypes.isEmpty then [[]]
            else cfg.namedPlaceholderTypes
  firstSome ps fun p =>
    if p.isPrefixOf input then
      (stringPatternMatch cfg (input.drop p.length)).map (p.length + ·)
    else none

/-- Boundary after a number alternative: the last matched character is a
digit (a word char), so `\b` holds iff the next char is not a word char. -/
def numBoundary (rest : List Char) : Bool :=
  match rest with
  | c :: _ => !(isWordChar c)
  | [] => true

/-- Decimal alternative `(-\s*)?[0-9]+(\.[0-9]+)?` of `NUMBER_REGEX`,
with the `\b` backtracking resolved: a fractional part is kept only if the
boundary holds after it (shrinking it leaves digit-digit, so the only
fallback is dropping it, where `.` itself provides the boundary). -/
def decAlt (input : List Char) : Option Nat :=
  let mlen :=
    match input with
    | c :: rest => if c = '-' then 1 + countWhile isJsSpace rest else 0
    | [] => 0
  let rest1 := input.drop mlen
  let d := countWhile isDigitChar rest1
  if d = 0 then none
  else
    let afterD := rest1.drop d
    let base := mlen + d
    match afterD with
    | c :: r2 =>
      if c = '.' then
        let f := countWhile isDigitChar r2
        if f ≠ 0 && numBoundary (r2.drop f) then some (base + 1 + f)
        else some base
      else if numBoundary afterD then some base else none
    | [] => if numBoundary afterD then some base else none

/-- Hex alternative `0x[0-9a-fA-F]+`. -/
def hexAlt (input : List Char) : Option Nat :=
  match input with
  | c :: c2 :: rest =>
    if c = '0' && c2 = 'x' then
      let h := countWhile isHexChar rest
      if h ≠ 0 && numBoundary (rest.drop h) then some (2 + h) else none
    else none
  | _ => none

/-- Binary alternative `0b[01]+`. -/
def binAlt (input : List Char) : Option Nat :=
  match input with
  | c :: c2 :: rest =>
    if c = '0' && c2 = 'b' then
      let h := countWhile isBinChar rest
      if h ≠ 0 && numBoundary (rest.drop h) then some (2 + h) else none
    else none
  | _ => none

/-- `NUMBER_REGEX = /^((-\s*)?[0-9]+(\.[0-9]+)?|0x[0-9a-fA-F]+|0b[01]+)\b/`. -/
def matchNumber (input : List Char) : Option Nat :=
  oor (decAlt input) (oor (hexAlt input) (binAlt input))

/-- One reserved-word alternative after `join('|').replace(/ /g, '\\s+')`:
non-space characters are case-insensitive literals, each run of `k` spaces
becomes `k` greedy `\s+` (total whitespace run of length at least `k`).
Fuel is the word length. -/
def resMatchLen : Nat → List Char → List Char → Option Nat
  | _, [], _ => some 0
  | 0, _ :: _, _ => none
  | fuel + 1, c :: w, input =>
    if c = ' ' then
      let k := 1 + countWhile (fun d => d = ' ') w
      let w2 := w.dropWhile (fun d => d = ' ')
      let m := countWhile isJsSpace input
      if k ≤ m then (resMatchLen fuel w2 (input.drop m)).map (m + ·) else none
    else
      match input with
      | [] => none
      | d :: rest => if ciEqChar c d then (resMatchLen fuel w rest).map (1 + ·) else none

/-- `createReservedWordRegex`: `^(w1|w2|...)\b` with flag `i`; an empty word
list compiles to `^()\b`, i.e. one empty alternative. -/
def matchReservedList (ws : List (List Char)) (input : List Char) : Option Nat :=
  let ws2 := if ws.isEmpty then [[]] else ws
  firstSome ws2 fun w =>
    (resMatchLen w.length w input).bind fun n =>
      if wordBoundaryOk input n then some n else none

/-- `WORD_REGEX = ^([\w ++ specialWordChars]+)`. -/
def matchWord (cfg : TokenizerConfig) (input : List Char) : Option Nat :=
  let n := countWhile (fun c => isWordChar c || cfg.specialWordChars.contains c) input
  if n = 0 then none else some n

/-- The fixed multi-character operators of `OPERATOR_REGEX`, in source
order. -/
def opStrs : List (List Char) :=
  [str "!=", str "<>", str "==", str "<=", str ">=", str "!<", str "!>",
   str "||", str "::", str "->>", str "->", str "~~*", str "~~",
   str "!~~*", str "!~~", str "~*", str "!~*", str "!~"]

/-- `OPERATOR_REGEX = ^((!=|<>|==|...|.))`: first multi-char operator that
is a literal prefix, else any single character except a line terminator. -/
def matchOperator (input : List Char) : Option Nat :=
  oor (firstSome opStrs fun p => if p.isPrefixOf input then some p.length else none)
    (match input with
     | c :: _ => if isLineTerm c then none else some 1
     | [] => none)

/- ## Token builders (`getTokenOnFirstMatch` and friends) -/

/-- `getTokenOnFirstMatch`: token whose `value` is the matched prefix. -/
def tokFromMatch (ty : TokenType) (input : List Char) (m : Option Nat) : Option Token :=
  m.map fun n => { type := ty, value := input.take n, key := [] }

/-- `getPlaceholderTokenWithKey`: a placeholder token with `key` derived
from the matched text. -/
def phToken (input : List Char) (m : Option Nat) (parseKey : List Char → List Char) :
    Option Token :=
  m.map fun n =>
    let v := input.take n
    { type := .placeholder, value := v, key := parseKey v }

def getWhitespaceToken (input : List Char) : Option Token :=
  tokFromMatch .whitespace input (matchWhitespace input)

def getLineCommentToken (cfg : TokenizerConfig) (input : List Char) : Option Token :=
  tokFromMatch .lineComment input (matchLineComment cfg input)

def getBlockCommentToken (input : List Char) : Option Token :=
  tokFromMatch .blockComment input (matchBlockComment input)

def getCommentToken (cfg : TokenizerConfig) (input : List Char) : Option Token :=
  oor (getLineCommentToken cfg input) (getBlockCommentToken input)

def getStringToken (cfg : TokenizerConfig) (input : List Char) : Option Token :=
  tokFromMatch .string input (stringPatternMatch cfg input)

/-- `getOpenParenToken`: the token value is upper-cased after matching. -/
def getOpenParenToken (cfg : TokenizerConfig) (input : List Char) : Option Token :=
  (tokFromMatch .openParen input (matchParens cfg.openParens input)).map
    fun t => { t with value := jsUpper t.value }

/-- `getCloseParenToken`: the token value is upper-cased after matching. -/
def getCloseParenToken (cfg : TokenizerConfig) (input : List Char) : Option Token :=
  (tokFromMatch .closeParen input (matchParens cfg.closeParens input)).map
    fun t => { t with value := jsUpper t.value }

/-- `getIdentNamedPlaceholderToken`: `parseKey = v => v.slice(1)`. -/
def getIdentNamedPlaceholderToken (cfg : TokenizerConfig) (input : List Char) :
    Option Token :=
  phToken input (matchIdentPH cfg input) (fun v => v.drop 1)

/-- `getEscapedPlaceholderKey`: replace every literal `\q` by `q`
(left-to-right, non-overlapping, as the global regex replace does; assumes
the quote character is not a regex metacharacter). -/
def unescapePH (q : Char) : List Char → List Char
  | [] => []
  | '\\' :: c :: rest =>
    if c = q then q :: unescapePH q rest else '\\' :: unescapePH q (c :: rest)
  | c :: rest => c :: unescapePH q rest

/-- `parseKey` of `getStringNamedPlaceholderToken`:
`v.slice(2, -1)` unescaped with respect to `v.slice(-1)`. -/
def stringPHKey (v : List Char) : List Char :=
  match v.getLast? with
  | some q => unescapePH q ((v.drop 2).dropLast)
  | none => []

def getStringNamedPlaceholderToken (cfg : TokenizerConfig) (input : List Char) :
    Option Token :=
  phToken input (matchStringPH cfg input) stringPHKey

/-- `getIndexedPlaceholderToken`: `parseKey = v => v.slice(1)`. -/
def getIndexedPlaceholderToken (cfg : TokenizerConfig) (input : List Char) :
    Option Token :=
  phToken input (matchIndexedPH cfg input) (fun v => v.drop 1)

def getPlaceholderToken (cfg : TokenizerConfig) (input : List Char) : Option Token :=
  oor (getIdentNamedPlaceholderToken cfg input)
    (oor (getStringNamedPlaceholderToken cfg input)
      (getIndexedPlaceholderToken cfg input))

def getNumberToken (input : List Char) : Option Token :=
  tokFromMatch .number input (matchNumber input)

def getToplevelReservedToken (cfg : TokenizerConfig) (input : List Char) : Option Token :=
  tokFromMatch .reservedToplevel input (matchReservedList cfg.reservedToplevelWords input)

def getNewlineReservedToken (cfg : TokenizerConfig) (input : List Char) : Option Token :=
  tokFromMatch .reservedNewline input (matchReservedList cfg.reservedNewlineWords input)

def getPlainReservedToken (cfg : TokenizerConfig) (input : List Char) : Option Token :=
  tokFromMatch .reserved input (matchReservedList cfg.reservedWords input)

/-- `getReservedWordToken`: skipped entirely when the previous token's value
is a bare `.`; otherwise toplevel, then newline, then plain reserved words,
and the result's value is upper-cased. -/
def prevIsDot (prev : Option Token) : Bool :=
  match prev with
  | some p => p.value = ['.']
  | none => false

def getReservedWordToken (cfg : TokenizerConfig) (input : List Char)
    (prev : Option Token) : Option Token :=
  if prevIsDot prev then none
  else
    (oor (getToplevelReservedToken cfg input)
      (oor (getNewlineReservedToken cfg input) (getPlainReservedToken cfg input))).map
      fun t => { t with value := jsUpper t.value }

def getWordToken (cfg : TokenizerConfig) (input : List Char) : Option Token :=
  tokFromMatch .word input (matchWord cfg input)

def getOperatorToken (input : List Char) : Option Token :=
  tokFromMatch .operator input (matchOperator input)

/-- `getNextToken`: the fixed priority cascade of matchers. -/
def getNextToken (cfg : TokenizerConfig) (input : List Char) (prev : Option Token) :
    Option Token :=
  oor (getWhitespaceToken input)
  (oor (getCommentToken cfg input)
  (oor (getStringToken cfg input)
  (oor (getOpenParenToken cfg input)
  (oor (getCloseParenToken cfg input)
  (oor (getPlaceholderToken cfg input)
  (oor (getNumberToken input)
  (oor (getReservedWordToken cfg input prev)
  (oor (getWordToken cfg input)
  (getOperatorToken input)))))))))

/-- The `while (input.length)` loop of `tokenize`, one fuel unit per
iteration; `none` models a non-terminating run (no token matched, or a
zero-length token matched, so the cursor never advances). -/
def tokenizeAux (cfg : TokenizerConfig) : Nat → List Char → Option Token →
    Option (List Token)
  | _, [], _ => some []
  | 0, _ :: _, _ => none
  | fuel + 1, c :: cs, prev =>
    match getNextToken cfg (c :: cs) prev with
    | none => none
    | some t =>
      (tokenizeAux cfg fuel (List.drop t.value.length (c :: cs)) (some t)).map (t :: ·)

/-- `Tokenizer.tokenize`.  When every iteration makes strict progress the
loop runs at most `input.length` iterations, so this fuel is exact. -/
def tokenize (cfg : TokenizerConfig) (input : List Char) : Option (List Token) :=
  tokenizeAux cfg input.length input none

/-- Token kinds whose `value` is upper-cased at creation
(`getOpenParenToken`, `getCloseParenToken`, `getReservedWordToken`). -/
def upperType : TokenType → Bool
  | .openParen | .closeParen | .reserved | .reservedToplevel | .reservedNewline => true
  | _ => false

/-- Strict progress of the matcher cascade: on every non-empty suffix some
token is produced and it is non-empty.  This is the property §4.1 of the
spec asserts for every configuration; it holds for the shipped dialect
configurations but not for degenerate ones (see the C3 counterexample). -/
def Progressive (cfg : TokenizerConfig) : Prop :=
  ∀ (input : List Char) (prev : Option Token), input ≠ [] →
    ∃ t, getNextToken cfg input prev = some t ∧ 1 ≤ t.value.length

/-- A standard-dialect-like configuration (nonempty matcher lists with
nonempty entries, as in the shipped dialect tables). -/
def stdCfg : TokenizerConfig :=
  { reservedWords := [str "AS", str "IN", str "ON"]
    reservedToplevelWords := [str "SELECT", str "FROM", str "WHERE", str "LIMIT"]
    reservedNewlineWords := [str "AND", str "OR"]
    stringTypes := [keySQ, keyDQ]
    openParens := [str "("]
    closeParens := [str ")"]
    indexedPlaceholderTypes := [str "?"]
    namedPlaceholderTypes := [str "@", str ":"]
    lineCommentTypes := [str "--", str "#"]
    specialWordChars := [] }

/- ## Placeholder resolver (`Params`) -/

/-- The TS `parameters` type: `Record<string, string> | string[]`.  An absent
`cfg.params` defaults to `{}` (the empty mapping) in the `Params`
constructor. -/
inductive ParamsVal where
  | map (m : List (List Char × List Char))
  | arr (a : List (List Char))
deriving DecidableEq, Repr

/-- `Params.get`.  For a mapping, `Object.keys(params).includes(key)` then
`params[key]`; a miss falls through to `return value`.  For an array,
`params[index++]` is returned unconditionally — `none` is JS `undefined`
when the index is out of range.  (The `if (!this.params)` branch of the
source is unreachable for values of the declared `parameters` type, since
the constructor default is `{}`.)  Returns the result and the new index. -/
def paramsGet : ParamsVal → Nat → Token → Option (List Char) × Nat
  | .map m, i, tok =>
    match m.lookup tok.key with
    | some v => (some v, i)
    | none => (some tok.value, i)
  | .arr a, i, _ => (a.get? i, i + 1)

/-- JS string concatenation of a possibly-`undefined` value. -/
def jsStr (v : Option (List Char)) : List Char :=
  match v with
  | some s => s
  | none => str "undefined"

/- ## Indent tracker -/

/-- Modelled from the spec: the file `Indentation.ts` is not part of the
provided sources (only `Formatter.ts` calls it).  Spec §3/§4.3: a stack of
markers tagged clause (toplevel) or nesting (block), rendered as the indent
unit repeated once per entry. -/
inductive IndentKind where
  | clause | nesting
deriving DecidableEq, Repr

def isClauseKind : IndentKind → Bool
  | .clause => true
  | .nesting => false

/-- Modelled from the spec: indent unit string plus the marker stack
(head = most recent); the unit defaults to a two-space indent
("a fixed-width whitespace unit"). -/
structure Indentation where
  unit : List Char
  stack : List IndentKind
deriving DecidableEq, Repr

/-- Modelled from the spec: `currentIndent` renders the indent unit repeated
once per stack entry. -/
def Indentation.getIndent (i : Indentation) : List Char :=
  (List.replicate i.stack.length i.unit).flatten

/-- Modelled from the spec: push a clause marker. -/
def Indentation.increaseToplevel (i : Indentation) : Indentation :=
  { i with stack := .clause :: i.stack }

/-- Modelled from the spec: push a nesting marker. -/
def Indentation.increaseBlockLevel (i : Indentation) : Indentation :=
  { i with stack := .nesting :: i.stack }

/-- Modelled from the spec: pop one clause marker if the top of the stack is
a clause marker; no-op otherwise (never underflows). -/
def Indentation.decreaseTopLevel (i : Indentation) : Indentation :=
  match i.stack with
  | .clause :: rest => { i with stack := rest }
  | _ => i

/-- Modelled from the spec: pop down to and including the most recent
nesting marker, discarding the clause markers above it; pops the whole
stack when no nesting marker exists. -/
def Indentation.decreaseBlockLevel (i : Indentation) : Indentation :=
  { i with stack := (i.stack.dropWhile isClauseKind).drop 1 }

/- ## Inline-block detector -/

/-- Modelled from the spec: `InlineBlock.ts` is not part of the provided
sources.  Spec §3/§4.4: the persisted state is a single boolean flag. -/
structure InlineBlock where
  active : Bool
deriving DecidableEq, Repr

/-- Modelled from the spec (§9): the maximum character length of an inline
block is an external constant not shown in the excerpt; 50 is used here. -/
def INLINE_MAX_LENGTH : Nat := 50

/-- Modelled from the spec (§4.4): scan forward from the opening bracket to
the matching close; disqualify when the accumulated span exceeds the
maximum length, on a nested independently-opened bracket, a line comment,
or a toplevel/newline reserved word; an unmatched open never inlines. -/
def inlineScan : List Token → Nat → Bool → Bool
  | [], _, _ => false
  | t :: rest, len, isFirst =>
    let len2 := len + t.value.length
    if INLINE_MAX_LENGTH < len2 then false
    else if t.type = .openParen && !isFirst then false
    else if t.type = .closeParen then true
    else if t.type = .lineComment || t.type = .reservedToplevel ||
            t.type = .reservedNewline then false
    else inlineScan rest len2 false

/-- Modelled from the spec (§4.4): `shouldInline(tokens, openIndex)`. -/
def shouldInline (tokens : List Token) (openIndex : Nat) : Bool :=
  inlineScan (tokens.drop openIndex) 0 true

/-- Modelled from the spec: evaluated once when an opening bracket is seen
and no inline block is already active. -/
def InlineBlock.beginIfPossible (b : InlineBlock) (tokens : List Token)
    (index : Nat) : InlineBlock :=
  if b.active then b else { active := shouldInline tokens index }

/- ## Printer (`Formatter.ts`) -/

/-- The `config` type of `types.ts` (the `language` tag is not interpreted
by the core). -/
structure FormatterConfig where
  indent : Option (List Char) := none
  params : Option ParamsVal := none
deriving DecidableEq, Repr

/-- The instance state a `Formatter` keeps across `format` calls: the indent
tracker, the inline-block flag, the positional-parameter counter of
`Params`, and the previous-reserved-word memory.  (`this.tokens` and
`this.index` are rebuilt from scratch inside each call and are therefore
per-call locals here.) -/
structure FmtState where
  ind : Indentation
  inl : InlineBlock
  paramsIndex : Nat
  previousReservedWord : Token
deriving DecidableEq, Repr

/-- The state of a freshly constructed `Formatter`. -/
def initState (cfg : FormatterConfig) : FmtState :=
  { ind := { unit := cfg.indent.getD (str "  "), stack := [] }
    inl := { active := false }
    paramsIndex := 0
    previousReservedWord := emptyToken }

/-- lodash `trimEnd`. -/
def trimEndJs (q : List Char) : List Char :=
  (q.reverse.dropWhile isJsSpace).reverse

/-- `String.prototype.trim`. -/
def jsTrim (q : List Char) : List Char :=
  trimEndJs (q.dropWhile isJsSpace)

/-- `previousToken(offset)`: `this.tokens[this.index - offset] || {}`
(an out-of-range or negative index yields the `{}` default). -/
def previousTokenAt (tokens : List Token) (index offset : Nat) : Token :=
  if offset ≤ index then
    match tokens.get? (index - offset) with
    | some t => t
    | none => emptyToken
  else emptyToken

/-- `previousNonWhitespaceToken`: walk back from `index` past whitespace
tokens; running past the start yields the `{}` default token. -/
def prevNonWsAux (tokens : List Token) : Nat → Token
  | 0 => emptyToken
  | k + 1 =>
    let t := match tokens.get? k with | some t => t | none => emptyToken
    if t.type = .whitespace then prevNonWsAux tokens k else t

def previousNonWhitespaceToken (tokens : List Token) (index : Nat) : Token :=
  prevNonWsAux tokens index

/-- `trimTrailingWhitespace`. -/
def trimTrailingWhitespace (tokens : List Token) (index : Nat) (q : List Char) :
    List Char :=
  if (previousNonWhitespaceToken tokens index).type = .lineComment then
    trimEndJs q ++ ['\n']
  else trimEndJs q

/-- `addNewline`: trim the end, then a newline plus the current indent. -/
def addNewline (ind : Indentation) (q : List Char) : List Char :=
  trimEndJs q ++ '\n' :: ind.getIndent

/-- `equalizeWhitespace`: every `\s+` run becomes a single space
(the flag records whether a run is already open). -/
def eqwAux : Bool → List Char → List Char
  | _, [] => []
  | inRun, c :: cs =>
    if isJsSpace c then
      if inRun then eqwAux true cs else ' ' :: eqwAux true cs
    else c :: eqwAux false cs

def equalizeWhitespace (l : List Char) : List Char := eqwAux false l

/-- `indentComment`: re-indent each internal newline to the current indent. -/
def indentComment (ind : Indentation) : List Char → List Char
  | [] => []
  | c :: cs =>
    if c = '\n' then '\n' :: ind.getIndent ++ indentComment ind cs
    else c :: indentComment ind cs

/-- `/^LIMIT$/i.test(value)`: case-insensitive exact match. -/
def limitTest (v : List Char) : Bool := ciEqList v (str "LIMIT")

/-- `formatComma`: comma plus one space, then a newline+indent unless an
inline block is active or the remembered reserved word is `LIMIT`. -/
def formatComma (tokens : List Token) (index : Nat) (st : FmtState)
    (v q : List Char) : List Char :=
  let q1 := trimTrailingWhitespace tokens index q ++ v ++ [' ']
  if st.inl.active then q1
  else if limitTest st.previousReservedWord.value then q1
  else addNewline st.ind q1

/-- One iteration of the `forEach` dispatch of
`getFormattedQueryFromTokens`, including the `previousReservedWord`
updates; returns the new accumulated query and state. -/
def processToken (cfg : FormatterConfig) (tokens : List Token) (index : Nat)
    (st : FmtState) (q : List Char) (t : Token) : List Char × FmtState :=
  if t.type = .whitespace then (q, st)
  else if t.type = .lineComment then
    (addNewline st.ind (q ++ t.value), st)
  else if t.type = .blockComment then
    (addNewline st.ind (addNewline st.ind q ++ indentComment st.ind t.value), st)
  else if t.type = .reservedToplevel then
    let ind1 := st.ind.decreaseTopLevel
    let q1 := addNewline ind1 q
    let ind2 := ind1.increaseToplevel
    let q2 := q1 ++ equalizeWhitespace t.value
    (addNewline ind2 q2, { st with ind := ind2, previousReservedWord := t })
  else if t.type = .reservedNewline then
    (addNewline st.ind q ++ equalizeWhitespace t.value ++ [' '],
     { st with previousReservedWord := t })
  else if t.type = .reserved then
    (q ++ t.value ++ [' '], { st with previousReservedWord := t })
  else if t.type = .openParen then
    let prevTy := (previousTokenAt tokens index 1).type
    let q1 := if prevTy = .whitespace || prevTy = .openParen || prevTy = .lineComment
              then q else trimEndJs q
    let q2 := q1 ++ t.value
    let inl2 := st.inl.beginIfPossible tokens index
    if inl2.active then (q2, { st with inl := inl2 })
    else
      let ind2 := st.ind.increaseBlockLevel
      (addNewline ind2 q2, { st with inl := inl2, ind := ind2 })
  else if t.type = .closeParen then
    if st.inl.active then
      (trimTrailingWhitespace tokens index q ++ t.value ++ [' '],
       { st with inl := { active := false } })
    else
      let ind2 := st.ind.decreaseBlockLevel
      (addNewline ind2 q ++ t.value ++ [' '], { st with ind := ind2 })
  else if t.type = .placeholder then
    let r := paramsGet ((cfg.params).getD (.map [])) st.paramsIndex t
    (q ++ jsStr r.1 ++ [' '], { st with paramsIndex := r.2 })
  else if t.value = [','] then
    (formatComma tokens index st t.value q, st)
  else if t.value = [':'] then
    (trimTrailingWhitespace tokens index q ++ t.value ++ [' '], st)
  else if t.value = ['.'] then
    (trimTrailingWhitespace tokens index q ++ t.value, st)
  else if t.value = [';'] then
    (trimTrailingWhitespace tokens index q ++ '\n' :: t.value ++ ['\n'], st)
  else (q ++ t.value ++ [' '], st)

/-- The `forEach` loop of `getFormattedQueryFromTokens`. -/
def runTokens (cfg : FormatterConfig) (tokens : List Token) :
    List Token → Nat → FmtState → List Char → List Char × FmtState
  | [], _, st, q => (q, st)
  | t :: rest, i, st, q =>
    let r := processToken cfg tokens i st q t
    runTokens cfg tokens rest (i + 1) r.2 r.1

def getFormattedQueryFromTokens (cfg : FormatterConfig) (tokens : List Token)
    (st : FmtState) : List Char × FmtState :=
  runTokens cfg tokens tokens 0 st []

/-- `Formatter.format`: tokenize, print, trim.  The instance state `st`
is whatever the constructor — or a previous `format` call — left behind;
`none` propagates a non-terminating tokenizer run. -/
def formatRun (cfg : FormatterConfig) (tcfg : TokenizerConfig) (st : FmtState)
    (query : List Char) : Option (List Char × FmtState) :=
  (tokenize tcfg query).map fun tokens =>
    let r := getFormattedQueryFromTokens cfg tokens st
    (jsTrim r.1, r.2)

/-- The formatted string of a `format` call (discarding the final state). -/
def formatOut (cfg : FormatterConfig) (tcfg : TokenizerConfig) (st : FmtState)
    (query : List Char) : Option (List Char) :=
  (formatRun cfg tcfg st query).map (·.1)

/-- A `FormatterConfig` with no parameters and the default indent. -/
def fcNone : FormatterConfig := {}

/-- Degenerate configuration for the C3 counterexample: with an empty
`stringTypes` list `STRING_REGEX` compiles to `^()`, which matches the empty
string, so `tokenize` stops making progress. -/
def cexCfg : TokenizerConfig := { stdCfg with stringTypes := [] }

/-- Configuration with a two-character named-placeholder prefix (C9). -/
def cfg9 : TokenizerConfig := { stdCfg with namedPlaceholderTypes := [str "$$"] }

/-- Positional parameters `["1","2"]`. -/
def cfgArr : FormatterConfig := { params := some (.arr [str "1", str "2"]) }

/-- Positional parameters `["7"]` (one element, for exhaustion). -/
def cfgOne : FormatterConfig := { params := some (.arr [str "7"]) }

/-- Concatenation of the value fields of a token list. -/
def joinValues (o : Option (List Token)) : List Char :=
  ((o.getD []).map Token.value).flatten

/-- Structural well-formedness of a tokenizer configuration: every matcher
list is non-empty and every entry is a non-empty string (with `stringTypes`
drawn from the five supported keys), as in the shipped dialect tables.
Under this condition every matcher of the cascade only produces matches of
positive length. -/
def WellFormedCfg (cfg : TokenizerConfig) : Prop :=
  cfg.lineCommentTypes ≠ [] ∧ (∀ p ∈ cfg.lineCommentTypes, p ≠ []) ∧
  cfg.stringTypes ≠ [] ∧ (∀ k ∈ cfg.stringTypes, strKindOf k ≠ .unknown) ∧
  cfg.openParens ≠ [] ∧ (∀ p ∈ cfg.openParens, p ≠ []) ∧
  cfg.closeParens ≠ [] ∧ (∀ p ∈ cfg.closeParens, p ≠ []) ∧
  cfg.namedPlaceholderTypes ≠ [] ∧ (∀ p ∈ cfg.namedPlaceholderTypes, p ≠ []) ∧
  cfg.indexedPlaceholderTypes ≠ [] ∧ (∀ p ∈ cfg.indexedPlaceholderTypes, p ≠ []) ∧
  cfg.reservedToplevelWords ≠ [] ∧ (∀ w ∈ cfg.reservedToplevelWords, w ≠ []) ∧
  cfg.reservedNewlineWords ≠ [] ∧ (∀ w ∈ cfg.reservedNewlineWords, w ≠ []) ∧
  cfg.reservedWords ≠ [] ∧ (∀ w ∈ cfg.reservedWords, w ≠ [])

/- ## Basic lemmas about the embedding -/

theorem take_len_take (l : List Char) (n : Nat) :
    l.take (l.take n).length = l.take n := by
  rw [List.length_take]
  rcases le_total n l.length with h | h
  · rw [Nat.min_eq_left h]
  · rw [Nat.min_eq_right h, List.take_length, List.take_of_length_le h]

theorem oor_eq_some {α : Type} {a b : Option α} {t : α} (h : oor a b = some t) :
    a = some t ∨ (a = none ∧ b = some t) := by
  cases a <;> simp [oor] at h ⊢ <;> tauto

theorem oor_eq_none {α : Type} {a b : Option α} :
    oor a b = none ↔ a = none ∧ b = none := by
  cases a <;> simp [oor]

theorem firstSome_eq_some {α β : Type} {l : List α} {f : α → Option β} {b : β}
    (h : firstSome l f = some b) : ∃ a, a ∈ l ∧ f a = some b := by
  induction l with
  | nil => simp [firstSome] at h
  | cons a as ih =>
    unfold firstSome at h
    rcases hfa : f a with _ | b0
    · rw [hfa] at h
      obtain ⟨x, hx1, hx2⟩ := ih h
      exact ⟨x, List.mem_cons_of_mem _ hx1, hx2⟩
    · rw [hfa] at h
      cases h
      exact ⟨a, List.mem_cons_self _ _, hfa⟩

/- Shape of the produced tokens: the value is the matched prefix of the
input (upper-cased for paren/reserved tokens). -/

theorem tokFromMatch_shape {ty : TokenType} {input : List Char} {m : Option Nat}
    {t : Token} (h : tokFromMatch ty input m = some t) :
    t.type = ty ∧ t.key = [] ∧ t.value = input.take t.value.length := by
  rcases m with _ | n
  · simp [tokFromMatch] at h
  · simp [tokFromMatch] at h
    refine ⟨by rw [← h], by rw [← h], ?_⟩
    rw [← h]
    exact (take_len_take input n).symm

theorem phToken_shape {input : List Char} {m : Option Nat}
    {pk : List Char → List Char} {t : Token} (h : phToken input m pk = some t) :
    t.type = .placeholder ∧ t.value = input.take t.value.length := by
  rcases m with _ | n
  · simp [phToken] at h
  · simp [phToken] at h
    refine ⟨by rw [← h], ?_⟩
    rw [← h]
    exact (take_len_take input n).symm

theorem upperTok_record {ty : TokenType} {input : List Char} {m : Option Nat}
    {t0 t : Token} (hm : tokFromMatch ty input m = some t0)
    (ht : { t0 with value := jsUpper t0.value } = t) :
    t.type = ty ∧ t.value = jsUpper (input.take t.value.length) := by
  obtain ⟨hty, _, hval⟩ := tokFromMatch_shape hm
  subst ht
  refine ⟨hty, ?_⟩
  show jsUpper t0.value = jsUpper (input.take (jsUpper t0.value).length)
  rw [show (jsUpper t0.value).length = t0.value.length by simp [jsUpper]]
  conv_rhs => rw [← hval]

theorem upperTok_shape {ty : TokenType} {input : List Char} {m : Option Nat}
    {t : Token}
    (h : (tokFromMatch ty input m).map (fun s => { s with value := jsUpper s.value }) =
      some t) :
    t.type = ty ∧ t.value = jsUpper (input.take t.value.length) := by
  rcases hm : tokFromMatch ty input m with _ | t0
  · rw [hm] at h; simp at h
  · rw [hm] at h
    simp only [Option.map_some', Option.some.injEq] at h
    exact upperTok_record hm h

/-- Relation between a produced token and the span of input it consumed:
reserved-word and bracket tokens carry the upper-cased span, all others the
span itself. -/
def tokenRaw (t : Token) (raw : List Char) : Prop :=
  t.value = if upperType t.type then jsUpper raw else raw

theorem getReservedWordToken_shape {cfg : TokenizerConfig} {input : List Char}
    {prev : Option Token} {t : Token}
    (h : getReservedWordToken cfg input prev = some t) :
    (t.type = .reservedToplevel ∨ t.type = .reservedNewline ∨ t.type = .reserved) ∧
      t.value = jsUpper (input.take t.value.length) := by
  unfold getReservedWordToken at h
  split at h
  · simp at h
  · rcases hm : oor (getToplevelReservedToken cfg input)
      (oor (getNewlineReservedToken cfg input) (getPlainReservedToken cfg input)) with
      _ | t0
    · rw [hm] at h; simp at h
    · rw [hm] at h
      simp only [Option.map_some', Option.some.injEq] at h
      rcases oor_eq_some hm with h2 | ⟨_, h2⟩
      · unfold getToplevelReservedToken at h2
        obtain ⟨hty, hv⟩ := upperTok_record h2 h
        exact ⟨Or.inl hty, hv⟩
      · rcases oor_eq_some h2 with h3 | ⟨_, h3⟩
        · unfold getNewlineReservedToken at h3
          obtain ⟨hty, hv⟩ := upperTok_record h3 h
          exact ⟨Or.inr (Or.inl hty), hv⟩
        · unfold getPlainReservedToken at h3
          obtain ⟨hty, hv⟩ := upperTok_record h3 h
          exact ⟨Or.inr (Or.inr hty), hv⟩

theorem getNextToken_raw {cfg : TokenizerConfig} {input : List Char}
    {prev : Option Token} {t : Token} (h : getNextToken cfg input prev = some t) :
    tokenRaw t (input.take t.value.length) := by
  unfold getNextToken at h
  rcases oor_eq_some h with h1 | ⟨_, h⟩
  · obtain ⟨hty, _, hv⟩ := tokFromMatch_shape h1
    simp [tokenRaw, hty, upperType, ← hv]
  rcases oor_eq_some h with h1 | ⟨_, h⟩
  · unfold getCommentToken at h1
    rcases oor_eq_some h1 with h2 | ⟨_, h2⟩
    · obtain ⟨hty, _, hv⟩ := tokFromMatch_shape h2
      simp [tokenRaw, hty, upperType, ← hv]
    · obtain ⟨hty, _, hv⟩ := tokFromMatch_shape h2
      simp [tokenRaw, hty, upperType, ← hv]
  rcases oor_eq_some h with h1 | ⟨_, h⟩
  · obtain ⟨hty, _, hv⟩ := tokFromMatch_shape h1
    simp [tokenRaw, hty, upperType, ← hv]
  rcases oor_eq_some h with h1 | ⟨_, h⟩
  · obtain ⟨hty, hv⟩ := upperTok_shape h1
    simp [tokenRaw, hty, upperType, ← hv]
  rcases oor_eq_some h with h1 | ⟨_, h⟩
  · obtain ⟨hty, hv⟩ := upperTok_shape h1
    simp [tokenRaw, hty, upperType, ← hv]
  rcases oor_eq_some h with h1 | ⟨_, h⟩
  · unfold getPlaceholderToken at h1
    rcases oor_eq_some h1 with h2 | ⟨_, h2⟩
    · obtain ⟨hty, hv⟩ := phToken_shape h2
      simp [tokenRaw, hty, upperType, ← hv]
    rcases oor_eq_some h2 with h3 | ⟨_, h3⟩
    · obtain ⟨hty, hv⟩ := phToken_shape h3
      simp [tokenRaw, hty, upperType, ← hv]
    · obtain ⟨hty, hv⟩ := phToken_shape h3
      simp [tokenRaw, hty, upperType, ← hv]
  rcases oor_eq_some h with h1 | ⟨_, h⟩
  · obtain ⟨hty, _, hv⟩ := tokFromMatch_shape h1
    simp [tokenRaw, hty, upperType, ← hv]
  rcases oor_eq_some h with h1 | ⟨_, h⟩
  · obtain ⟨hty, hv⟩ := getReservedWordToken_shape h1
    rcases hty with hty | hty | hty <;> simp [tokenRaw, hty, upperType, ← hv]
  rcases oor_eq_some h with h1 | ⟨_, h⟩
  · obtain ⟨hty, _, hv⟩ := tokFromMatch_shape h1
    simp [tokenRaw, hty, upperType, ← hv]
  · obtain ⟨hty, _, hv⟩ := tokFromMatch_shape h
    simp [tokenRaw, hty, upperType, ← hv]

/- ## Positivity: each matcher (on a well-formed configuration) matches at
least one character. -/

theorem nonempty_isEmpty_false {α : Type} {l : List α} (h : l ≠ []) :
    l.isEmpty = false := by
  cases l
  · exact absurd rfl h
  · rfl

theorem tokFromMatch_len_pos {ty : TokenType} {input : List Char} {m : Option Nat}
    {t : Token} (h : tokFromMatch ty input m = some t) (hin : input ≠ [])
    (hm : ∀ n, m = some n → 1 ≤ n) : 1 ≤ t.value.length := by
  rcases m with _ | n
  · simp [tokFromMatch] at h
  · have hn := hm n rfl
    have hlen : 0 < input.length := List.length_pos.mpr hin
    simp [tokFromMatch] at h
    rw [← h]
    simp [List.length_take]
    omega

theorem phToken_len_pos {input : List Char} {m : Option Nat}
    {pk : List Char → List Char} {t : Token} (h : phToken input m pk = some t)
    (hin : input ≠ []) (hm : ∀ n, m = some n → 1 ≤ n) : 1 ≤ t.value.length := by
  rcases m with _ | n
  · simp [phToken] at h
  · have hn := hm n rfl
    have hlen : 0 < input.length := List.length_pos.mpr hin
    simp [phToken] at h
    rw [← h]
    simp [List.length_take]
    omega

theorem upperTok_len_pos {ty : TokenType} {input : List Char} {m : Option Nat}
    {t : Token}
    (h : (tokFromMatch ty input m).map (fun s => { s with value := jsUpper s.value }) =
      some t)
    (hin : input ≠ []) (hm : ∀ n, m = some n → 1 ≤ n) : 1 ≤ t.value.length := by
  rcases hm0 : tokFromMatch ty input m with _ | t0
  · rw [hm0] at h; simp at h
  · rw [hm0] at h
    simp only [Option.map_some', Option.some.injEq] at h
    have := tokFromMatch_len_pos hm0 hin hm
    rw [← h]
    simpa [jsUpper] using this

theorem matchWhitespace_pos {input : List Char} {n : Nat}
    (h : matchWhitespace input = some n) : 1 ≤ n := by
  simp only [matchWhitespace] at h
  split at h
  · exact absurd h (by simp)
  · rename_i hg
    cases h
    omega

theorem matchLineComment_pos {cfg : TokenizerConfig} {input : List Char} {n : Nat}
    (h1 : cfg.lineCommentTypes ≠ []) (h2 : ∀ p ∈ cfg.lineCommentTypes, p ≠ [])
    (h : matchLineComment cfg input = some n) : 1 ≤ n := by
  simp only [matchLineComment, nonempty_isEmpty_false h1, Bool.false_eq_true,
    if_false] at h
  obtain ⟨p, hp, halt⟩ := firstSome_eq_some h
  have hplen : 1 ≤ p.length := List.length_pos.mpr (h2 p hp)
  split at halt
  · rcases hsc : lineCommentScan (input.drop p.length) with _ | k
    · rw [hsc] at halt; simp at halt
    · rw [hsc] at halt
      simp only [Option.map_some', Option.some.injEq] at halt
      omega
  · simp at halt

theorem matchBlockComment_pos {input : List Char} {n : Nat}
    (h : matchBlockComment input = some n) : 1 ≤ n := by
  simp only [matchBlockComment] at h
  split at h
  · simp only [Option.some.injEq] at h
    omega
  · simp at h

theorem repGreedy_pos {g : List Char → Option Nat} :
    ∀ (fuel : Nat) (input : List Char) (acc n : Nat),
      repGreedy g fuel input acc = some n → 1 ≤ n := by
  intro fuel
  induction fuel with
  | zero =>
    intro input acc n h
    simp only [repGreedy] at h
    by_cases ha : acc = 0
    · rw [if_pos ha] at h
      exact absurd h (by simp)
    · rw [if_neg ha] at h
      cases h
      omega
  | succ fuel ih =>
    intro input acc n h
    simp only [repGreedy] at h
    by_cases hm : (g input).getD 0 = 0
    · rw [if_pos hm] at h
      by_cases ha : acc = 0
      · rw [if_pos ha] at h
        exact absurd h (by simp)
      · rw [if_neg ha] at h
        cases h
        omega
    · rw [if_neg hm] at h
      exact ih _ _ _ h

theorem backtickMatch_pos {input : List Char} {n : Nat}
    (h : backtickMatch input = some n) : 1 ≤ n := repGreedy_pos _ _ _ _ h

theorem quoteMatch_pos {q : Char} {input : List Char} {n : Nat}
    (h : quoteMatch q input = some n) : 1 ≤ n := repGreedy_pos _ _ _ _ h

theorem nQuoteMatch_pos {input : List Char} {n : Nat}
    (h : nQuoteMatch input = some n) : 1 ≤ n := repGreedy_pos _ _ _ _ h

theorem brFirst_pos {input : List Char} {n : Nat}
    (h : brFirst input = some n) : 1 ≤ n := by
  rcases input with _ | ⟨c, rest⟩
  · simp [brFirst] at h
  · simp only [brFirst] at h
    by_cases hc : c = '['
    · rw [if_pos hc] at h
      by_cases hlt : countWhile (fun d => !(d = ']')) rest < rest.length
      · rw [if_pos hlt] at h
        cases h
        omega
      · rw [if_neg hlt] at h
        cases h
        omega
    · rw [if_neg hc] at h
      exact absurd h (by simp)

theorem bracketMatch_pos {input : List Char} {n : Nat}
    (h : bracketMatch input = some n) : 1 ≤ n := by
  simp only [bracketMatch] at h
  rcases hb : brFirst input with _ | n0
  · rw [hb] at h; simp at h
  · rw [hb] at h
    simp only [Option.map_some', Option.some.injEq] at h
    have := brFirst_pos hb
    omega

theorem strAltMatch_pos {key input : List Char} {n : Nat}
    (hk : strKindOf key ≠ .unknown) (h : strAltMatch key input = some n) : 1 ≤ n := by
  unfold strAltMatch at h
  rcases hkind : strKindOf key with _ | _ | _ | _ | _ | _ <;> rw [hkind] at h
  · exact backtickMatch_pos h
  · exact bracketMatch_pos h
  · exact quoteMatch_pos h
  · exact quoteMatch_pos h
  · exact nQuoteMatch_pos h
  · exact absurd hkind hk

theorem stringPatternMatch_pos {cfg : TokenizerConfig} {input : List Char} {n : Nat}
    (h1 : cfg.stringTypes ≠ []) (h2 : ∀ k ∈ cfg.stringTypes, strKindOf k ≠ .unknown)
    (h : stringPatternMatch cfg input = some n) : 1 ≤ n := by
  simp only [stringPatternMatch, nonempty_isEmpty_false h1, Bool.false_eq_true,
    if_false] at h
  obtain ⟨k, hk, halt⟩ := firstSome_eq_some h
  exact strAltMatch_pos (h2 k hk) halt

theorem matchParens_pos {ps : List (List Char)} {input : List Char} {n : Nat}
    (h1 : ps ≠ []) (h2 : ∀ p ∈ ps, p ≠ [])
    (h : matchParens ps input = some n) : 1 ≤ n := by
  simp only [matchParens, nonempty_isEmpty_false h1, Bool.false_eq_true,
    if_false] at h
  obtain ⟨p, hp, halt⟩ := firstSome_eq_some h
  rcases p with _ | ⟨c, p0⟩
  · exact absurd rfl (h2 _ hp)
  · simp only [parenAlt] at halt
    by_cases hp0 : p0.isEmpty
    · rw [if_pos hp0] at halt
      rcases input with _ | ⟨d, rest⟩
      · exact absurd halt (by simp)
      · dsimp only at halt
        by_cases hc : ciEqChar c d = true
        · rw [if_pos hc] at halt
          cases halt
          omega
        · rw [if_neg hc] at halt
          exact absurd halt (by simp)
    · rw [if_neg hp0] at halt
      split at halt
      · cases halt
        simp
      · exact absurd halt (by simp)

theorem matchIdentPH_pos {cfg : TokenizerConfig} {input : List Char} {n : Nat}
    (h : matchIdentPH cfg input = some n) : 1 ≤ n := by
  simp only [matchIdentPH] at h
  obtain ⟨p, _, halt⟩ := firstSome_eq_some h
  split at halt
  · split at halt
    · simp at halt
    · rename_i hk
      cases halt
      omega
  · simp at halt

theorem matchStringPH_pos {cfg : TokenizerConfig} {input : List Char} {n : Nat}
    (h1 : cfg.namedPlaceholderTypes ≠ [])
    (h2 : ∀ p ∈ cfg.namedPlaceholderTypes, p ≠ [])
    (h : matchStringPH cfg input = some n) : 1 ≤ n := by
  simp only [matchStringPH, nonempty_isEmpty_false h1, Bool.false_eq_true,
    if_false] at h
  obtain ⟨p, hp, halt⟩ := firstSome_eq_some h
  have hplen : 1 ≤ p.length := List.length_pos.mpr (h2 p hp)
  split at halt
  · rcases hsp : stringPatternMatch cfg (input.drop p.length) with _ | m
    · rw [hsp] at halt; simp at halt
    · rw [hsp] at halt
      simp only [Option.map_some', Option.some.injEq] at halt
      omega
  · simp at halt

theorem matchIndexedPH_pos {cfg : TokenizerConfig} {input : List Char} {n : Nat}
    (h1 : cfg.indexedPlaceholderTypes ≠ [])
    (h2 : ∀ p ∈ cfg.indexedPlaceholderTypes, p ≠ [])
    (h : matchIndexedPH cfg input = some n) : 1 ≤ n := by
  simp only [matchIndexedPH, nonempty_isEmpty_false h1, Bool.false_eq_true,
    if_false] at h
  obtain ⟨p, hp, halt⟩ := firstSome_eq_some h
  have hplen : 1 ≤ p.length := List.length_pos.mpr (h2 p hp)
  split at halt
  · cases halt
    omega
  · simp at halt

theorem decAlt_pos {input : List Char} {n : Nat}
    (h : decAlt input = some n) : 1 ≤ n := by
  simp only [decAlt] at h
  split at h
  · simp at h
  · rename_i hd
    split at h
    · rename_i c r2 heq
      split at h
      · split at h <;> · cases h; omega
      · split at h
        · cases h; omega
        · simp at h
    · split at h
      · cases h; omega
      · simp at h

theorem hexAlt_pos {input : List Char} {n : Nat}
    (h : hexAlt input = some n) : 1 ≤ n := by
  rcases input with _ | ⟨c, _ | ⟨c2, rest⟩⟩
  · simp [hexAlt] at h
  · simp [hexAlt] at h
  · simp only [hexAlt] at h
    split at h
    · split at h
      · cases h; omega
      · simp at h
    · simp at h

theorem binAlt_pos {input : List Char} {n : Nat}
    (h : binAlt input = some n) : 1 ≤ n := by
  rcases input with _ | ⟨c, _ | ⟨c2, rest⟩⟩
  · simp [binAlt] at h
  · simp [binAlt] at h
  · simp only [binAlt] at h
    split at h
    · split at h
      · cases h; omega
      · simp at h
    · simp at h

theorem matchNumber_pos {input : List Char} {n : Nat}
    (h : matchNumber input = some n) : 1 ≤ n := by
  unfold matchNumber at h
  rcases oor_eq_some h with h1 | ⟨_, h⟩
  · exact decAlt_pos h1
  rcases oor_eq_some h with h1 | ⟨_, h⟩
  · exact hexAlt_pos h1
  · exact binAlt_pos h

theorem resMatchLen_pos {w input : List Char} {n : Nat} (hw : w ≠ [])
    (h : resMatchLen w.length w input = some n) : 1 ≤ n := by
  rcases w with _ | ⟨c, w0⟩
  · exact absurd rfl hw
  · simp only [List.length_cons, resMatchLen] at h
    split at h
    · split at h
      · rcases hr : resMatchLen w0.length (w0.dropWhile fun d => d = ' ')
          (input.drop (countWhile isJsSpace input)) with _ | n0
        · rw [hr] at h; simp at h
        · rw [hr] at h
          simp only [Option.map_some', Option.some.injEq] at h
          rename_i hk
          omega
      · simp at h
    · rcases input with _ | ⟨d, rest⟩
      · simp at h
      · simp only [] at h
        split at h
        · rcases hr : resMatchLen w0.length w0 rest with _ | n0
          · rw [hr] at h; simp at h
          · rw [hr] at h
            simp only [Option.map_some', Option.some.injEq] at h
            omega
        · simp at h

theorem matchReservedList_pos {ws : List (List Char)} {input : List Char} {n : Nat}
    (h1 : ws ≠ []) (h2 : ∀ w ∈ ws, w ≠ [])
    (h : matchReservedList ws input = some n) : 1 ≤ n := by
  simp only [matchReservedList, nonempty_isEmpty_false h1, Bool.false_eq_true,
    if_false] at h
  obtain ⟨w, hw, halt⟩ := firstSome_eq_some h
  rw [Option.bind_eq_some] at halt
  obtain ⟨n0, hr, hif⟩ := halt
  by_cases hb : wordBoundaryOk input n0 = true
  · rw [if_pos hb] at hif
    cases hif
    exact resMatchLen_pos (h2 w hw) hr
  · rw [if_neg hb] at hif
    exact absurd hif (by simp)

theorem matchWord_pos {cfg : TokenizerConfig} {input : List Char} {n : Nat}
    (h : matchWord cfg input = some n) : 1 ≤ n := by
  simp only [matchWord] at h
  split at h
  · simp at h
  · rename_i hg
    cases h
    omega

theorem matchOperator_pos {input : List Char} {n : Nat}
    (h : matchOperator input = some n) : 1 ≤ n := by
  unfold matchOperator at h
  rcases oor_eq_some h with h1 | ⟨_, h⟩
  · obtain ⟨p, hp, halt⟩ := firstSome_eq_some h1
    have hall : ∀ q ∈ opStrs, q ≠ ([] : List Char) := by decide
    have hplen : p ≠ [] := hall p hp
    by_cases hpre : p.isPrefixOf input = true
    · rw [if_pos hpre] at halt
      cases halt
      exact List.length_pos.mpr hplen
    · rw [if_neg hpre] at halt
      exact absurd halt (by simp)
  · rcases input with _ | ⟨c, rest⟩
    · exact absurd h (by simp)
    · dsimp only at h
      by_cases hlt : isLineTerm c = true
      · rw [if_pos hlt] at h
        exact absurd h (by simp)
      · rw [if_neg hlt] at h
        cases h
        omega

theorem lineTerm_isSpace {c : Char} (h : isLineTerm c = true) : isJsSpace c = true := by
  simp only [isLineTerm, Bool.or_eq_true, decide_eq_true_eq] at h
  simp only [isJsSpace, Bool.or_eq_true, Bool.and_eq_true, decide_eq_true_eq]
  omega

theorem matchOperator_total {c : Char} {cs : List Char} (hsp : isJsSpace c = false) :
    ∃ n, matchOperator (c :: cs) = some n := by
  unfold matchOperator
  rcases hf : firstSome opStrs
      (fun p => if p.isPrefixOf (c :: cs) then some p.length else none) with _ | m
  · have hlt : isLineTerm c = false := by
      rcases hl : isLineTerm c
      · rfl
      · rw [lineTerm_isSpace hl] at hsp
        exact absurd hsp (by simp)
    exact ⟨1, by simp [oor, hf, hlt]⟩
  · exact ⟨m, by simp [oor, hf]⟩

theorem matchWhitespace_head {c : Char} {cs : List Char} (hsp : isJsSpace c = true) :
    ∃ n, matchWhitespace (c :: cs) = some n := by
  refine ⟨countWhile isJsSpace (c :: cs), ?_⟩
  have hne : countWhile isJsSpace (c :: cs) ≠ 0 := by
    simp [countWhile, List.takeWhile_cons, hsp]
  simp only [matchWhitespace]
  rw [if_neg hne]

theorem upperTok_record_len {ty : TokenType} {input : List Char} {m : Option Nat}
    {t0 t : Token} (hm : tokFromMatch ty input m = some t0)
    (ht : { t0 with value := jsUpper t0.value } = t) (hin : input ≠ [])
    (hpos : ∀ n, m = some n → 1 ≤ n) : 1 ≤ t.value.length := by
  have := tokFromMatch_len_pos hm hin hpos
  subst ht
  simpa [jsUpper] using this

theorem getNextToken_wf_pos {cfg : TokenizerConfig} (hw : WellFormedCfg cfg)
    {input : List Char} {prev : Option Token} {t : Token}
    (hin : input ≠ []) (h : getNextToken cfg input prev = some t) :
    1 ≤ t.value.length := by
  obtain ⟨w1, w2, w3, w4, w5, w6, w7, w8, w9, w10, w11, w12, w13, w14, w15, w16,
    w17, w18⟩ := hw
  unfold getNextToken at h
  rcases oor_eq_some h with h1 | ⟨_, h⟩
  · exact tokFromMatch_len_pos h1 hin (fun n hn => matchWhitespace_pos hn)
  rcases oor_eq_some h with h1 | ⟨_, h⟩
  · unfold getCommentToken at h1
    rcases oor_eq_some h1 with h2 | ⟨_, h2⟩
    · exact tokFromMatch_len_pos h2 hin
        (fun n hn => matchLineComment_pos w1 w2 hn)
    · exact tokFromMatch_len_pos h2 hin (fun n hn => matchBlockComment_pos hn)
  rcases oor_eq_some h with h1 | ⟨_, h⟩
  · exact tokFromMatch_len_pos h1 hin
      (fun n hn => stringPatternMatch_pos w3 w4 hn)
  rcases oor_eq_some h with h1 | ⟨_, h⟩
  · unfold getOpenParenToken at h1
    exact upperTok_len_pos h1 hin (fun n hn => matchParens_pos w5 w6 hn)
  rcases oor_eq_some h with h1 | ⟨_, h⟩
  · unfold getCloseParenToken at h1
    exact upperTok_len_pos h1 hin (fun n hn => matchParens_pos w7 w8 hn)
  rcases oor_eq_some h with h1 | ⟨_, h⟩
  · unfold getPlaceholderToken at h1
    rcases oor_eq_some h1 with h2 | ⟨_, h2⟩
    · exact phToken_len_pos h2 hin (fun n hn => matchIdentPH_pos hn)
    rcases oor_eq_some h2 with h3 | ⟨_, h3⟩
    · exact phToken_len_pos h3 hin
        (fun n hn => matchStringPH_pos w9 w10 hn)
    · exact phToken_len_pos h3 hin
        (fun n hn => matchIndexedPH_pos w11 w12 hn)
  rcases oor_eq_some h with h1 | ⟨_, h⟩
  · exact tokFromMatch_len_pos h1 hin (fun n hn => matchNumber_pos hn)
  rcases oor_eq_some h with h1 | ⟨_, h⟩
  · unfold getReservedWordToken at h1
    split at h1
    · exact absurd h1 (by simp)
    · rcases hm : oor (getToplevelReservedToken cfg input)
        (oor (getNewlineReservedToken cfg input)
          (getPlainReservedToken cfg input)) with _ | t0
      · rw [hm] at h1; exact absurd h1 (by simp)
      · rw [hm] at h1
        simp only [Option.map_some', Option.some.injEq] at h1
        rcases oor_eq_some hm with h2 | ⟨_, h2⟩
        · unfold getToplevelReservedToken at h2
          exact upperTok_record_len h2 h1 hin
            (fun n hn => matchReservedList_pos w13 w14 hn)
        rcases oor_eq_some h2 with h3 | ⟨_, h3⟩
        · unfold getNewlineReservedToken at h3
          exact upperTok_record_len h3 h1 hin
            (fun n hn => matchReservedList_pos w15 w16 hn)
        · unfold getPlainReservedToken at h3
          exact upperTok_record_len h3 h1 hin
            (fun n hn => matchReservedList_pos w17 w18 hn)
  rcases oor_eq_some h with h1 | ⟨_, h⟩
  · exact tokFromMatch_len_pos h1 hin (fun n hn => matchWord_pos hn)
  · exact tokFromMatch_len_pos h hin (fun n hn => matchOperator_pos hn)

theorem getNextToken_total (cfg : TokenizerConfig) (c : Char) (cs : List Char)
    (prev : Option Token) :
    ∃ t, getNextToken cfg (c :: cs) prev = some t := by
  rcases hg : getNextToken cfg (c :: cs) prev with _ | t
  · exfalso
    unfold getNextToken at hg
    rw [oor_eq_none] at hg; obtain ⟨hws, hg⟩ := hg
    rw [oor_eq_none] at hg; obtain ⟨_, hg⟩ := hg
    rw [oor_eq_none] at hg; obtain ⟨_, hg⟩ := hg
    rw [oor_eq_none] at hg; obtain ⟨_, hg⟩ := hg
    rw [oor_eq_none] at hg; obtain ⟨_, hg⟩ := hg
    rw [oor_eq_none] at hg; obtain ⟨_, hg⟩ := hg
    rw [oor_eq_none] at hg; obtain ⟨_, hg⟩ := hg
    rw [oor_eq_none] at hg; obtain ⟨_, hg⟩ := hg
    rw [oor_eq_none] at hg; obtain ⟨_, hop⟩ := hg
    by_cases hsp : isJsSpace c = true
    · obtain ⟨n, hn⟩ := @matchWhitespace_head c cs hsp
      unfold getWhitespaceToken at hws
      rw [hn] at hws
      simp [tokFromMatch] at hws
    · have hsp2 : isJsSpace c = false := by
        rcases hb : isJsSpace c
        · rfl
        · exact absurd hb hsp
      obtain ⟨n, hn⟩ := @matchOperator_total c cs hsp2
      unfold getOperatorToken at hop
      rw [hn] at hop
      simp [tokFromMatch] at hop
  · exact ⟨t, rfl⟩

/-- Every structurally well-formed configuration (in particular every
shipped dialect configuration) satisfies the strict-progress property. -/
theorem wellformed_progressive {cfg : TokenizerConfig} (hw : WellFormedCfg cfg) :
    Progressive cfg := by
  intro input prev hne
  rcases input with _ | ⟨c, cs⟩
  · exact absurd rfl hne
  · obtain ⟨t, ht⟩ := getNextToken_total cfg c cs prev
    exact ⟨t, ht, getNextToken_wf_pos hw (by simp) ht⟩

/-- The standard configuration is well formed. -/
theorem wf_std : WellFormedCfg stdCfg := by
  unfold WellFormedCfg
  decide

/-- The standard configuration satisfies the strict-progress property. -/
theorem progressive_std : Progressive stdCfg := wellformed_progressive wf_std

/-- Unfolding equation of `tokenizeAux` on a nonempty input with fuel. -/
theorem tokenizeAux_cons (cfg : TokenizerConfig) (fuel : Nat) (c : Char)
    (cs : List Char) (prev : Option Token) :
    tokenizeAux cfg (fuel + 1) (c :: cs) prev =
      match getNextToken cfg (c :: cs) prev with
      | none => none
      | some t =>
        (tokenizeAux cfg fuel (List.drop t.value.length (c :: cs)) (some t)).map
          (t :: ·) := rfl

theorem tokenizeAux_nil (cfg : TokenizerConfig) (fuel : Nat) (prev : Option Token) :
    tokenizeAux cfg fuel [] prev = some [] := by
  cases fuel <;> rfl

theorem tokenizeAux_zero (cfg : TokenizerConfig) (c : Char) (cs : List Char)
    (prev : Option Token) : tokenizeAux cfg 0 (c :: cs) prev = none := rfl

/-- Master lemma about the `tokenize` loop under strict progress: the result
exists, it needs exactly `ts.length` iterations (fewer fuel fails, that much
or more succeeds), and the tokens decompose the input into spans whose
(possibly upper-cased) texts are the token values. -/
theorem tokenizeAux_master {cfg : TokenizerConfig} (hp : Progressive cfg) :
    ∀ (k : Nat) (input : List Char), input.length ≤ k → ∀ (prev : Option Token),
      ∃ (ts : List Token) (spans : List (List Char)),
        ts.length ≤ input.length ∧
        (∀ f, ts.length ≤ f → tokenizeAux cfg f input prev = some ts) ∧
        (∀ f, f < ts.length → tokenizeAux cfg f input prev = none) ∧
        spans.flatten = input ∧
        List.Forall₂ (fun t raw => tokenRaw t raw) ts spans := by
  intro k
  induction k with
  | zero =>
    intro input hlen prev
    have hnil : input = [] := List.eq_nil_of_length_eq_zero (Nat.le_zero.mp hlen)
    subst hnil
    exact ⟨[], [], by simp, fun f _ => tokenizeAux_nil cfg f prev, by simp, rfl,
      List.Forall₂.nil⟩
  | succ k ih =>
    intro input hlen prev
    rcases input with _ | ⟨c, cs⟩
    · exact ⟨[], [], by simp, fun f _ => tokenizeAux_nil cfg f prev, by simp, rfl,
        List.Forall₂.nil⟩
    · obtain ⟨t, hg, hpos⟩ := hp (c :: cs) prev (by simp)
      have hrest : (List.drop t.value.length (c :: cs)).length ≤ k := by
        rw [List.length_drop]
        simp only [List.length_cons] at hlen ⊢
        omega
      obtain ⟨ts0, spans0, hlen0, hup0, hlo0, hjoin0, hrel0⟩ :=
        ih (List.drop t.value.length (c :: cs)) hrest (some t)
      have hlen0' : ts0.length ≤ (c :: cs).length - t.value.length := by
        rw [← List.length_drop]
        exact hlen0
      refine ⟨t :: ts0, (c :: cs).take t.value.length :: spans0, ?_, ?_, ?_, ?_, ?_⟩
      · simp only [List.length_cons] at hlen0' ⊢
        omega
      · intro f hf
        rcases f with _ | f0
        · simp at hf
        · have hst : ts0.length ≤ f0 := by
            simp only [List.length_cons] at hf
            omega
          rw [tokenizeAux_cons, hg]
          dsimp only
          rw [hup0 f0 hst]
          rfl
      · intro f hf
        rcases f with _ | f0
        · exact tokenizeAux_zero cfg c cs prev
        · have hst : f0 < ts0.length := by
            simp only [List.length_cons] at hf
            omega
          rw [tokenizeAux_cons, hg]
          dsimp only
          rw [hlo0 f0 hst]
          rfl
      · simp only [List.flatten_cons, hjoin0]
        exact List.take_append_drop _ _
      · exact List.Forall₂.cons (getNextToken_raw hg) hrel0

/-- `tokenize` under strict progress: termination with the exact iteration
count and the span decomposition of the input. -/
theorem tokenize_exact {cfg : TokenizerConfig} (hp : Progressive cfg)
    (input : List Char) :
    ∃ (ts : List Token) (spans : List (List Char)),
      tokenize cfg input = some ts ∧
      tokenizeAux cfg ts.length input none = some ts ∧
      (∀ f, f < ts.length → tokenizeAux cfg f input none = none) ∧
      spans.flatten = input ∧
      List.Forall₂ (fun t raw => tokenRaw t raw) ts spans := by
  obtain ⟨ts, spans, hlen, hup, hlo, hjoin, hrel⟩ :=
    tokenizeAux_master hp input.length input (le_refl _) none
  exact ⟨ts, spans, hup _ hlen, hup _ (le_refl _), hlo, hjoin, hrel⟩

/-- The key of a placeholder token is `parseKey` of its value. -/
theorem phToken_key {input : List Char} {m : Option Nat}
    {pk : List Char → List Char} {t : Token} (h : phToken input m pk = some t) :
    t.key = pk t.value := by
  rcases m with _ | n
  · simp [phToken] at h
  · simp [phToken] at h
    rw [← h]

/- ## Claims -/

/-- C1, counterexample to the claim as stated: on `"select 1"` the tokenizer
terminates, but the reserved word is upper-cased at creation, so the
concatenation of the token values is `"SELECT 1"`, not the original input. -/
theorem C1_counterexample :
    tokenize stdCfg (str "select 1") =
      some [{ type := .reservedToplevel, value := str "SELECT", key := [] },
            { type := .whitespace, value := str " ", key := [] },
            { type := .number, value := str "1", key := [] }] ∧
    joinValues (tokenize stdCfg (str "select 1")) = str "SELECT 1" ∧
    str "SELECT 1" ≠ str "select 1" := by
  refine ⟨rfl, rfl, by decide⟩

/-- C1 (amended): for every configuration on which the matcher cascade makes
strict progress (all shipped dialect configurations do, `progressive_std`),
`tokenize` terminates on every finite input, and the input splits into
consecutive spans, one per token, where each token's value is its span —
upper-cased for reserved-word and bracket tokens, verbatim for every other
kind.  Concatenating the token values therefore reconstructs the input
exactly up to that upper-casing (and exactly on the nose when no lower-case
reserved word or bracket occurs). -/
theorem C1_tokenize_spans {cfg : TokenizerConfig} (hp : Progressive cfg)
    (input : List Char) :
    ∃ (ts : List Token) (spans : List (List Char)),
      tokenize cfg input = some ts ∧
      spans.flatten = input ∧
      List.Forall₂ tokenRaw ts spans := by
  obtain ⟨ts, spans, h1, _, _, h4, h5⟩ := tokenize_exact hp input
  exact ⟨ts, spans, h1, h4, h5⟩

/-- Witness for C1 at the standard configuration and a concrete input. -/
theorem C1_witness :
    ∃ (ts : List Token) (spans : List (List Char)),
      tokenize stdCfg (str "select 1") = some ts ∧
      spans.flatten = str "select 1" ∧
      List.Forall₂ tokenRaw ts spans :=
  C1_tokenize_spans progressive_std (str "select 1")

/-- C2, counterexample to the claim as stated: with the positional parameter
source `["1","2"]`, two successive `format` calls with the same query `"?"`
on the same instance return `"1"` and then `"2"` — the parameter counter is
instance state, not reset per call. -/
theorem C2_counterexample :
    formatRun cfgArr stdCfg (initState cfgArr) (str "?") =
      some (str "1", { initState cfgArr with paramsIndex := 1 }) ∧
    formatRun cfgArr stdCfg { initState cfgArr with paramsIndex := 1 } (str "?") =
      some (str "2", { initState cfgArr with paramsIndex := 2 }) ∧
    str "1" ≠ str "2" := by
  refine ⟨rfl, rfl, by decide⟩

/-- C2 (amended): `format` reuses the instance state created at construction
(indent stack, inline-block flag, positional-parameter counter,
previous-reserved-word memory); only the token buffer is rebuilt per call.
A second call with the same query returns the same string whenever the
first call left that persistent state unchanged, and concretely a
no-parameter formatter is stable across repeated calls on
`"select x from t"`; but it is not fresh per call (see the
counterexample). -/
theorem C2_state_reuse :
    (∀ (cfg : FormatterConfig) (tcfg : TokenizerConfig) (st : FmtState)
        (q out : List Char) (st2 : FmtState),
        formatRun cfg tcfg st q = some (out, st2) → st2 = st →
        formatRun cfg tcfg st2 q = some (out, st2)) ∧
    (formatRun fcNone stdCfg (initState fcNone) (str "select x from t") =
        some (str "SELECT\n  x\nFROM\n  t",
          { ind := { unit := str "  ", stack := [.clause] }
            inl := { active := false }
            paramsIndex := 0
            previousReservedWord :=
              { type := .reservedToplevel, value := str "FROM", key := [] } }) ∧
      formatRun fcNone stdCfg
          { ind := { unit := str "  ", stack := [.clause] }
            inl := { active := false }
            paramsIndex := 0
            previousReservedWord :=
              { type := .reservedToplevel, value := str "FROM", key := [] } }
          (str "select x from t") =
        some (str "SELECT\n  x\nFROM\n  t",
          { ind := { unit := str "  ", stack := [.clause] }
            inl := { active := false }
            paramsIndex := 0
            previousReservedWord :=
              { type := .reservedToplevel, value := str "FROM", key := [] } })) := by
  refine ⟨?_, rfl, rfl⟩
  intro cfg tcfg st q out st2 h he
  rw [he] at h ⊢
  exact h

/-- Witness for C2 at the empty query, whose run leaves the state intact. -/
theorem C2_witness :
    formatRun fcNone stdCfg (initState fcNone) [] = some ([], initState fcNone) :=
  C2_state_reuse.1 fcNone stdCfg (initState fcNone) [] [] (initState fcNone) rfl rfl

/-- C3, counterexample to the claim as stated: with the degenerate (but
expressible) configuration whose `stringTypes` list is empty, the compiled
string regex `^()` matches the empty string, so `getNextToken` yields a
zero-length token on the non-empty suffix `","` and the `tokenize` loop
never advances (the fueled model returns `none`). -/
theorem C3_counterexample :
    getNextToken cexCfg (str ",") none =
      some { type := .string, value := [], key := [] } ∧
    ¬ 1 ≤ ({ type := .string, value := [], key := [] } : Token).value.length ∧
    tokenize cexCfg (str ",") = none := by
  refine ⟨rfl, by decide, rfl⟩

/-- C3 (amended): for every input string and every structurally well-formed
tokenizer configuration (non-empty matcher lists with non-empty entries, as
in every shipped dialect), `getNextToken` on a non-empty suffix always
returns a token of positive length, so `tokenize` makes strict progress and
terminates after exactly as many loop iterations as tokens produced: fuel
equal to the token count succeeds, any smaller fuel does not. -/
theorem C3_progress_wellformed (cfg : TokenizerConfig) (hw : WellFormedCfg cfg) :
    (∀ (input : List Char) (prev : Option Token), input ≠ [] →
      ∃ t, getNextToken cfg input prev = some t ∧ 1 ≤ t.value.length) ∧
    ∀ input : List Char, ∃ ts : List Token,
      tokenize cfg input = some ts ∧
      tokenizeAux cfg ts.length input none = some ts ∧
      ∀ f, f < ts.length → tokenizeAux cfg f input none = none := by
  have hp := wellformed_progressive hw
  refine ⟨hp, fun input => ?_⟩
  obtain ⟨ts, _, h1, h2, h3, _, _⟩ := tokenize_exact hp input
  exact ⟨ts, h1, h2, h3⟩

/-- Witness for C3 at the standard configuration and a concrete suffix. -/
theorem C3_witness :
    ∃ t, getNextToken stdCfg (str "a") none = some t ∧ 1 ≤ t.value.length :=
  (C3_progress_wellformed stdCfg wf_std).1 (str "a") none (by decide)

/-- C4: under a configuration with strict matcher progress (all shipped
dialects), `format` is total — it returns a string for every input string
and every instance state (the embedding is a total function, so no
exception path exists) — and `format` of the empty string is the empty
string with the state untouched. -/
theorem C4_total_and_empty :
    (∀ (cfg : FormatterConfig) (tcfg : TokenizerConfig) (st : FmtState)
        (q : List Char), Progressive tcfg →
        ∃ r, formatRun cfg tcfg st q = some r) ∧
    formatRun fcNone stdCfg (initState fcNone) (str "") =
      some (str "", initState fcNone) := by
  constructor
  · intro cfg tcfg st q hp
    obtain ⟨ts, _, h1, _, _, _, _⟩ := tokenize_exact hp q
    refine ⟨(jsTrim (getFormattedQueryFromTokens cfg ts st).1,
      (getFormattedQueryFromTokens cfg ts st).2), ?_⟩
    unfold formatRun
    rw [h1]
    rfl
  · rfl

/-- Witness for C4 at the standard configuration and a concrete query. -/
theorem C4_witness :
    ∃ r, formatRun fcNone stdCfg (initState fcNone) (str "select 1") = some r :=
  C4_total_and_empty.1 fcNone stdCfg (initState fcNone) (str "select 1")
    progressive_std

/-- C5: reserved-word matching is skipped, for every configuration and every
input, whenever the previous token's text is a bare `.`; concretely
`"mytable.from"` lexes `from` as a bare word even though `FROM` is a
configured (toplevel) reserved word. -/
theorem C5_dot_rule :
    (∀ (cfg : TokenizerConfig) (input : List Char) (p : Token),
        p.value = str "." → getReservedWordToken cfg input (some p) = none) ∧
    tokenize stdCfg (str "mytable.from") =
      some [{ type := .word, value := str "mytable", key := [] },
            { type := .operator, value := str ".", key := [] },
            { type := .word, value := str "from", key := [] }] := by
  constructor
  · intro cfg input p hv
    have hd : prevIsDot (some p) = true := by
      simp only [prevIsDot, hv]
      rfl
    unfold getReservedWordToken
    rw [if_pos hd]
  · rfl

/-- Witness for C5 with a concrete dot token. -/
theorem C5_witness :
    getReservedWordToken stdCfg (str "from")
      (some { type := .operator, value := str ".", key := [] }) = none :=
  C5_dot_rule.1 stdCfg (str "from")
    { type := .operator, value := str ".", key := [] } rfl

/-- C6, counterexample to the claim as stated: in `"limit in a, b"` the most
recently remembered toplevel/newline reserved word at the comma is `LIMIT`,
yet because the plain reserved word `IN` overwrote the (single) memory cell
the printer does emit a newline after the comma. -/
theorem C6_counterexample :
    tokenize stdCfg (str "limit in a, b") =
      some [{ type := .reservedToplevel, value := str "LIMIT", key := [] },
            { type := .whitespace, value := str " ", key := [] },
            { type := .reserved, value := str "IN", key := [] },
            { type := .whitespace, value := str " ", key := [] },
            { type := .word, value := str "a", key := [] },
            { type := .operator, value := str ",", key := [] },
            { type := .whitespace, value := str " ", key := [] },
            { type := .word, value := str "b", key := [] }] ∧
    formatOut fcNone stdCfg (initState fcNone) (str "limit in a, b") =
      some (str "LIMIT\n  IN a,\n  b") ∧
    some (str "LIMIT\n  IN a,\n  b") ≠ some (str "LIMIT\n  IN a, b") := by
  refine ⟨rfl, rfl, by decide⟩

/-- C6 (amended): when the Printer formats a comma, if the most recently
remembered reserved word of any class (plain, toplevel or newline — the
single `previousReservedWord` cell) matches `LIMIT` case-insensitively and
exactly, no newline is emitted after the comma; otherwise, outside an
active inline block, a newline plus the current indent is emitted. -/
theorem C6_comma_rule (tokens : List Token) (index : Nat) (st : FmtState)
    (v q : List Char) :
    (limitTest st.previousReservedWord.value = true →
      formatComma tokens index st v q =
        trimTrailingWhitespace tokens index q ++ v ++ [' ']) ∧
    (st.inl.active = false → limitTest st.previousReservedWord.value = false →
      formatComma tokens index st v q =
        addNewline st.ind (trimTrailingWhitespace tokens index q ++ v ++ [' '])) := by
  constructor
  · intro hl
    simp [formatComma, hl]
  · intro ha hl
    simp [formatComma, ha, hl]

/-- Witness for C6: both branches at concrete states. -/
theorem C6_witness :
    formatComma [] 0
        { ind := { unit := str "  ", stack := [] }
          inl := { active := false }
          paramsIndex := 0
          previousReservedWord :=
            { type := .reservedToplevel, value := str "LIMIT", key := [] } }
        (str ",") (str "x") =
      trimTrailingWhitespace [] 0 (str "x") ++ str "," ++ [' '] ∧
    formatComma [] 0 (initState fcNone) (str ",") (str "x") =
      addNewline (initState fcNone).ind
        (trimTrailingWhitespace [] 0 (str "x") ++ str "," ++ [' ']) := by
  constructor
  · exact (C6_comma_rule [] 0
      { ind := { unit := str "  ", stack := [] }
        inl := { active := false }
        paramsIndex := 0
        previousReservedWord :=
          { type := .reservedToplevel, value := str "LIMIT", key := [] } }
      (str ",") (str "x")).1 rfl
  · exact (C6_comma_rule [] 0 (initState fcNone) (str ",") (str "x")).2 rfl rfl

/-- C7: placeholder resolution — a mapping source returns the mapped entry
when it contains the key, the token's own text otherwise (also when no
parameter source was supplied, since the constructor default is the empty
mapping); an ordered source returns the element at the running counter,
which advances once per lookup, regardless of the token's key; and
end to end, `["1","2"]` substitutes the two `?` of
`SELECT * FROM t WHERE a = ? AND b = ?` in order, while `:id` with no
parameters is kept verbatim. -/
theorem C7_placeholder_resolution :
    (∀ (m : List (List Char × List Char)) (i : Nat) (tok : Token) (v : List Char),
        m.lookup tok.key = some v → paramsGet (.map m) i tok = (some v, i)) ∧
    (∀ (m : List (List Char × List Char)) (i : Nat) (tok : Token),
        m.lookup tok.key = none → paramsGet (.map m) i tok = (some tok.value, i)) ∧
    (∀ (a : List (List Char)) (i : Nat) (tok : Token),
        paramsGet (.arr a) i tok = (a.get? i, i + 1)) ∧
    formatOut cfgArr stdCfg (initState cfgArr)
        (str "SELECT * FROM t WHERE a = ? AND b = ?") =
      some (str "SELECT\n  *\nFROM\n  t\nWHERE\n  a = 1\n  AND b = 2") ∧
    formatOut fcNone stdCfg (initState fcNone) (str "a = :id") =
      some (str "a = :id") := by
  refine ⟨?_, ?_, fun a i tok => rfl, rfl, rfl⟩
  · intro m i tok v h
    simp [paramsGet, h]
  · intro m i tok h
    simp [paramsGet, h]

/-- Witness for C7 with a concrete mapping hit and miss. -/
theorem C7_witness :
    paramsGet (.map [(str "name", str "Bob")]) 0
        { type := .placeholder, value := str "@name", key := str "name" } =
      (some (str "Bob"), 0) ∧
    paramsGet (.map []) 3
        { type := .placeholder, value := str ":id", key := str "id" } =
      (some (str ":id"), 3) := by
  constructor
  · exact C7_placeholder_resolution.1 [(str "name", str "Bob")] 0
      { type := .placeholder, value := str "@name", key := str "name" }
      (str "Bob") rfl
  · exact C7_placeholder_resolution.2.1 [] 3
      { type := .placeholder, value := str ":id", key := str "id" } rfl

/-- C8: every token produced by the matcher cascade whose kind is a
reserved-word or bracket kind carries the upper-cased form of the span of
input it consumed, and a token of any other kind carries that span
verbatim; consequently `format` emits canonical upper-case keywords while
preserving the case of everything else, as on `"select x from t"`. -/
theorem C8_case_canonicalization :
    (∀ (cfg : TokenizerConfig) (input : List Char) (prev : Option Token) (t : Token),
        getNextToken cfg input prev = some t → upperType t.type = true →
        t.value = jsUpper (input.take t.value.length)) ∧
    (∀ (cfg : TokenizerConfig) (input : List Char) (prev : Option Token) (t : Token),
        getNextToken cfg input prev = some t → upperType t.type = false →
        t.value = input.take t.value.length) ∧
    formatOut fcNone stdCfg (initState fcNone) (str "select x from t") =
      some (str "SELECT\n  x\nFROM\n  t") := by
  refine ⟨?_, ?_, rfl⟩
  · intro cfg input prev t h hup
    have hr := getNextToken_raw h
    unfold tokenRaw at hr
    rw [if_pos hup] at hr
    exact hr
  · intro cfg input prev t h hup
    have hr := getNextToken_raw h
    unfold tokenRaw at hr
    rw [hup] at hr
    simpa using hr

/-- Witness for C8 with a concrete reserved word and a concrete bare word. -/
theorem C8_witness :
    ({ type := .reservedToplevel, value := str "SELECT", key := [] } : Token).value =
      jsUpper ((str "select x").take (str "SELECT").length) ∧
    ({ type := .word, value := str "x", key := [] } : Token).value =
      (str "x y").take (str "x").length := by
  constructor
  · exact C8_case_canonicalization.1 stdCfg (str "select x") none
      { type := .reservedToplevel, value := str "SELECT", key := [] } rfl rfl
  · exact C8_case_canonicalization.2.1 stdCfg (str "x y")
      (some { type := .whitespace, value := str " ", key := [] })
      { type := .word, value := str "x", key := [] } rfl rfl

/-- C9, counterexample to the claim as stated: with the configured
two-character prefix `$$`, the placeholder `$$x` gets key `$x` — `slice(1)`
strips exactly one character, not the configured prefix. -/
theorem C9_counterexample :
    tokenize cfg9 (str "$$x") =
      some [{ type := .placeholder, value := str "$$x", key := str "$x" }] ∧
    str "$x" ≠ str "x" := by
  refine ⟨rfl, by decide⟩

/-- C9 (amended): placeholder key derivation — identifier-style and indexed
placeholders take the matched text with its first character removed (which
equals the prefix stripped, resp. the digits after the prefix with the
empty string when none are given, exactly when the configured prefix is a
single character, as in every shipped dialect); string-quoted placeholders
take the matched text minus its first two and last characters, with
backslash escapes of the final character undone (the quoted content
unescaped when the prefix is one character and the string is terminated).
The concrete single-character-prefix cases behave as the spec states. -/
theorem C9_key_derivation :
    (∀ (cfg : TokenizerConfig) (input : List Char) (t : Token),
        getIdentNamedPlaceholderToken cfg input = some t →
        t.key = t.value.drop 1) ∧
    (∀ (cfg : TokenizerConfig) (input : List Char) (t : Token),
        getIndexedPlaceholderToken cfg input = some t →
        t.key = t.value.drop 1) ∧
    (∀ (cfg : TokenizerConfig) (input : List Char) (t : Token),
        getStringNamedPlaceholderToken cfg input = some t →
        t.key = stringPHKey t.value) ∧
    tokenize stdCfg (str "@name") =
      some [{ type := .placeholder, value := str "@name", key := str "name" }] ∧
    tokenize stdCfg (str "?42") =
      some [{ type := .placeholder, value := str "?42", key := str "42" }] ∧
    tokenize stdCfg (str "?") =
      some [{ type := .placeholder, value := str "?", key := [] }] ∧
    tokenize stdCfg ['@', cQuote, 'a', '\\', cQuote, 'b', cQuote] =
      some [{ type := .placeholder,
              value := ['@', cQuote, 'a', '\\', cQuote, 'b', cQuote],
              key := ['a', cQuote, 'b'] }] := by
  refine ⟨?_, ?_, ?_, rfl, rfl, rfl, rfl⟩
  · intro cfg input t h
    exact phToken_key h
  · intro cfg input t h
    exact phToken_key h
  · intro cfg input t h
    exact phToken_key h

/-- Witness for C9 with a concrete identifier-style placeholder token. -/
theorem C9_witness :
    ({ type := .placeholder, value := str "@name", key := str "name" } : Token).key =
      (str "@name").drop 1 :=
  C9_key_derivation.1 stdCfg (str "@name")
    { type := .placeholder, value := str "@name", key := str "name" } rfl

/-- C10: with an ordered parameter source, `Params.get` returns the element
at the running counter unconditionally — never the token's own text — and
past the end of the sequence the lookup is the out-of-range `undefined`
(`none`), which string concatenation renders as `"undefined"` in the
output, rather than the placeholder being kept. -/
theorem C10_positional_exhaustion :
    (∀ (a : List (List Char)) (i : Nat) (tok : Token),
        paramsGet (.arr a) i tok = (a.get? i, i + 1)) ∧
    (∀ (a : List (List Char)) (i : Nat) (tok : Token), a.length ≤ i →
        (paramsGet (.arr a) i tok).1 = none) ∧
    formatOut cfgOne stdCfg (initState cfgOne) (str "? ?") =
      some (str "7 undefined") := by
  refine ⟨fun a i tok => rfl, ?_, rfl⟩
  intro a i tok h
  show a.get? i = none
  exact List.get?_eq_none.mpr h

/-- Witness for C10 at a concrete exhausted sequence. -/
theorem C10_witness :
    (paramsGet (.arr [str "7"]) 1
      { type := .placeholder, value := str "?", key := [] }).1 = none :=
  C10_positional_exhaustion.2.1 [str "7"] 1
    { type := .placeholder, value := str "?", key := [] } (by decide)
